import Mathlib

/-!
Shallow embedding of `src/models/markov.py` (class `Markov`): a graph-based
n-gram Markov model.  Python dictionaries preserve insertion order, so the
`graph` attribute (a dict of dicts) is embedded as an association list of
association lists; the first entry whose key matches is the dict entry, and
dicts built through the class API never carry duplicate keys.

Tokens in the Python code are arbitrary hashable objects; only actual `str`
values can take part in the `''.join(...)` concatenation that builds a prefix
key.  We embed tokens as an inductive type with a constructor for strings, one
for Python's `None` (the value `random_suffix` returns when it falls through
its loop), and one for any other hashable non-string object.

Python exceptions become an explicit error type: `TypeError` (raised by
`__init__` on a non-int and by `''.join` on a non-string), `ValueError`
(raised on arity mismatches and by `update` on an order mismatch) and
`IndexError` (`ngram[-1]` on an empty tuple).  Counts are `Nat`, probabilities
are `ℚ` (the float divisions of interest are exact), and the random draws of
`random.random()` are passed in explicitly as rational thresholds.
-/

/-- A Python token value: a string, `None`, or some other hashable object
(identified by a numeric id, since only equality on it matters). -/
inductive Tok where
  | str (s : String)
  | pynone
  | obj (id : Nat)
deriving DecidableEq, Repr

/-- A token is stringable iff it is an actual `str`. -/
def Tok.isStr : Tok → Bool
  | .str _ => true
  | _ => false

/-- The Python exceptions the embedded methods can raise. -/
inductive Err where
  | typeError
  | valueError
  | indexError
deriving DecidableEq, Repr

/-- `''.join(toks)`: succeeds with the concatenation when every element is a
string, otherwise raises `TypeError` (modelled as `Option.none`). -/
def joinToks : List Tok → Option String
  | [] => some ""
  | Tok.str s :: rest => (joinToks rest).map (fun r => s ++ r)
  | _ => Option.none

/-- First-match association-list lookup — the semantics of `d[k]` /
`k in d` on a Python dict embedded as an association list. -/
def alookup {α β : Type} [DecidableEq α] (k : α) : List (α × β) → Option β
  | [] => Option.none
  | (a, b) :: rest => if a = k then some b else alookup k rest

/-- The inner dicts of `Markov.graph`: suffix token → occurrence count. -/
abbrev SufMap := List (Tok × Nat)

/-- `Markov.graph`: prefix key (a string) → suffix token → occurrence count. -/
abbrev Graph := List (String × SufMap)

/-- The state of a `Markov` instance: the n-gram length `self.n` (a Python
int) and the transition graph `self.graph`. -/
structure Markov where
  n : Int
  graph : Graph
deriving DecidableEq, Repr

/-- The argument passed to `Markov.__init__`: a Python int, or a value of any
other type (e.g. the float `2.0`). -/
inductive NArg where
  | int (i : Int)
  | nonInt
deriving DecidableEq, Repr

/-- `Markov.__init__(self, n)`: `TypeError` if `n` is not an int,
`ValueError` if `n < 2`, otherwise a model with an empty graph. -/
def Markov.init : NArg → Except Err Markov
  | .nonInt => .error .typeError
  | .int i => if i < 2 then .error .valueError else .ok ⟨i, []⟩

/-- `self.graph[source][destination] += 1` on the inner dict, with
`destination: 1` inserted (at the end, dict insertion order) when absent. -/
def bumpSuffix (sufs : SufMap) (d : Tok) : SufMap :=
  match sufs with
  | [] => [(d, 1)]
  | (k, v) :: rest => if k = d then (k, v + 1) :: rest else (k, v) :: bumpSuffix rest d

/-- The three cases of `add_ngram` on the graph: unseen source, seen source
with unseen destination, seen source and destination. -/
def addEdge (g : Graph) (s : String) (d : Tok) : Graph :=
  match g with
  | [] => [(s, [(d, 1)])]
  | (k, v) :: rest => if k = s then (k, bumpSuffix v d) :: rest else (k, v) :: addEdge rest s d

/-- `Markov.add_ngram(self, *ngram)`: arity check, then
`source = ''.join(ngram[:-1])`, `destination = ngram[-1]`, then the
three-way case split incrementing `graph[source][destination]`. -/
def Markov.add_ngram (m : Markov) (ngram : List Tok) : Except Err Markov :=
  if (ngram.length : Int) ≠ m.n then .error .valueError
  else
    match joinToks ngram.dropLast with
    | Option.none => .error .typeError
    | some source =>
      match ngram.getLast? with
      | Option.none => .error .indexError
      | some destination => .ok { m with graph := addEdge m.graph source destination }

/-- `Markov.get_suffixes(self, *prefix)`: arity check, join the prefix
tokens into the prefix key (re-raising `TypeError`), return `{}` for an
unseen key, otherwise map each suffix to `weight / total_weight`. -/
def Markov.get_suffixes (m : Markov) (pfx : List Tok) : Except Err (List (Tok × ℚ)) :=
  if (pfx.length : Int) ≠ m.n - 1 then .error .valueError
  else
    match joinToks pfx with
    | Option.none => .error .typeError
    | some prefix_string =>
      match alookup prefix_string m.graph with
      | Option.none => .ok []
      | some sufs =>
        let total_weight : ℚ := ((sufs.map (fun q => q.2)).sum : Nat)
        .ok (sufs.map (fun q => (q.1, (q.2 : ℚ) / total_weight)))

/-- `Markov.get_ngrams(self, *prefix)`: wraps `get_suffixes`, keying the
result by `prefix + (suffix,)` instead of by the suffix. -/
def Markov.get_ngrams (m : Markov) (pfx : List Tok) : Except Err (List (List Tok × ℚ)) :=
  match m.get_suffixes pfx with
  | .error e => .error e
  | .ok suffix_mapping => .ok (suffix_mapping.map (fun q => (pfx ++ [q.1], q.2)))

/-- `self.graph[prefix][suffix] += other[prefix][suffix]` for one suffix of
`update`'s inner loop, inserting the count when the suffix is absent. -/
def addSuffixCount (sufs : SufMap) (d : Tok) (w : Nat) : SufMap :=
  match sufs with
  | [] => [(d, w)]
  | (k, v) :: rest => if k = d then (k, v + w) :: rest else (k, v) :: addSuffixCount rest d w

/-- One iteration of `update`'s outer loop: copy the whole suffix dict when
the prefix is absent from `self.graph`, otherwise fold the suffix counts in
one by one. -/
def mergeEntry (g : Graph) (pfx : String) (sufs : SufMap) : Graph :=
  match g with
  | [] => [(pfx, sufs)]
  | (k, v) :: rest =>
      if k = pfx then (k, sufs.foldl (fun acc q => addSuffixCount acc q.1 q.2) v) :: rest
      else (k, v) :: mergeEntry rest pfx sufs

/-- `Markov.update(self, markov_model)`: `ValueError` when the orders differ,
otherwise add every n-gram occurrence of the other model into `self.graph`. -/
def Markov.update (m other : Markov) : Except Err Markov :=
  if m.n ≠ other.n then .error .valueError
  else .ok { m with graph := other.graph.foldl (fun g p => mergeEntry g p.1 p.2) m.graph }

/-- The loop of `random_suffix`: accumulate probability mass in insertion
order and return the first suffix whose running mass reaches the threshold;
falling off the end of the loop returns Python's `None`. -/
def pickSuffix (dist : List (Tok × ℚ)) (t upto : ℚ) : Tok :=
  match dist with
  | [] => Tok.pynone
  | (s, p) :: rest => if upto + p ≥ t then s else pickSuffix rest t (upto + p)

/-- `Markov.random_suffix(self, *prefix)` with the draw of
`random.random()` passed in as `t`. -/
def Markov.random_suffix (m : Markov) (pfx : List Tok) (t : ℚ) : Except Err Tok :=
  match m.get_suffixes pfx with
  | .error e => .error e
  | .ok dist => .ok (pickSuffix dist t 0)

/-- `deque.append` on a deque with `maxlen`: append on the right, dropping
from the left whatever exceeds the bound. -/
def windowPush (w : List Tok) (maxlen : Nat) (x : Tok) : List Tok :=
  let w2 := w ++ [x]
  w2.drop (w2.length - maxlen)

/-- The `while True` loop of `random_sequence`, supplied with an explicit
finite list of random draws: `.ok Option.none` means the draws ran out with
the walk still going (the Python loop would keep iterating). -/
def Markov.walk (m : Markov) (window sequence : List Tok) : List ℚ → Except Err (Option (List Tok))
  | [] => .ok Option.none
  | t :: ts =>
    match m.random_suffix window t with
    | .error e => .error e
    | .ok suffix =>
      if suffix = Tok.str "" then .ok (some (sequence ++ [suffix]))
      else m.walk (windowPush window (m.n - 1).toNat suffix) (sequence ++ [suffix]) ts

/-- `Markov.random_sequence(self, *prefix)`: arity check, then walk from the
starting window `deque(prefix, prefix_length)` with the output sequence
initialised to the prefix. -/
def Markov.random_sequence (m : Markov) (pfx : List Tok) (ts : List ℚ) :
    Except Err (Option (List Tok)) :=
  if (pfx.length : Int) ≠ m.n - 1 then .error .valueError
  else m.walk pfx pfx ts

/-- A mutating call on a model: `add_ngram` or `update`.  A call that raises
leaves the Python object unchanged, which `applyOp` makes explicit. -/
inductive Op where
  | add (ngram : List Tok)
  | upd (other : Markov)

/-- Run one mutating call, keeping the old state when the call raises. -/
def applyOp (m : Markov) : Op → Markov
  | .add ngram =>
    match m.add_ngram ngram with
    | .ok m2 => m2
    | .error _ => m
  | .upd other =>
    match m.update other with
    | .ok m2 => m2
    | .error _ => m

/-- Run a finite sequence of mutating calls. -/
def runOps (m : Markov) (ops : List Op) : Markov :=
  ops.foldl applyOp m

/-- The count stored in the graph for a (prefix key, suffix) pair, reading an
absent entry as 0. -/
def countOf (g : Graph) (p : String) (s : Tok) : Nat :=
  match alookup p g with
  | Option.none => 0
  | some sufs =>
    match alookup s sufs with
    | Option.none => 0
    | some c => c

/-- The structural invariant of a graph reachable through the class API: the
outer and inner key lists are duplicate-free (they embed Python dicts), every
inner dict is non-empty, and every count is at least 1. -/
def GoodGraph (g : Graph) : Prop :=
  (g.map (fun e => e.1)).Nodup ∧
    ∀ e ∈ g, (e.2.map (fun q => q.1)).Nodup ∧ e.2 ≠ [] ∧ ∀ q ∈ e.2, 1 ≤ q.2

instance : DecidablePred GoodGraph := fun g => by
  unfold GoodGraph; infer_instance

instance {ε α : Type} [DecidableEq ε] [DecidableEq α] : DecidableEq (Except ε α) := fun a b =>
  match a, b with
  | .error e1, .error e2 =>
      if h : e1 = e2 then isTrue (by rw [h]) else isFalse (by simp [h])
  | .error _, .ok _ => isFalse (by simp)
  | .ok _, .error _ => isFalse (by simp)
  | .ok v1, .ok v2 =>
      if h : v1 = v2 then isTrue (by rw [h]) else isFalse (by simp [h])

/-- The count a suffix dict records for a token, an absent entry read as 0. -/
def scount (sufs : SufMap) (s : Tok) : Nat :=
  match alookup s sufs with
  | Option.none => 0
  | some c => c

/-! ### Association-list lemmas -/

theorem alookup_mem {α β : Type} [DecidableEq α] {l : List (α × β)} {k : α} {v : β}
    (h : alookup k l = some v) : (k, v) ∈ l := by
  induction l with
  | nil => simp [alookup] at h
  | cons e rest ih =>
    obtain ⟨a, b⟩ := e
    by_cases hk : a = k
    · subst hk
      simp [alookup] at h
      simp [h]
    · simp [alookup, hk] at h
      exact List.mem_cons_of_mem _ (ih h)

theorem alookup_map {α β γ : Type} [DecidableEq α] (f : β → γ) (l : List (α × β)) (k : α) :
    alookup k (l.map (fun q => (q.1, f q.2))) = (alookup k l).map f := by
  induction l with
  | nil => simp [alookup]
  | cons e rest ih =>
    by_cases hk : e.1 = k
    · simp [alookup, hk]
    · simp [alookup, hk, ih]

theorem alookup_map_key {α β : Type} [DecidableEq α] {γ : Type} [DecidableEq γ]
    (f : α → γ) (hf : ∀ a b, f a = f b → a = b) (l : List (α × β)) (k : α) :
    alookup (f k) (l.map (fun q => (f q.1, q.2))) = alookup k l := by
  induction l with
  | nil => simp [alookup]
  | cons e rest ih =>
    by_cases hk : e.1 = k
    · simp [alookup, hk]
    · have : f e.1 ≠ f k := fun hc => hk (hf _ _ hc)
      simp [alookup, hk, this, ih]

/-! ### Counting lemmas for `add_ngram` -/

theorem scount_nil (s : Tok) : scount [] s = 0 := rfl

theorem scount_cons (k : Tok) (v : Nat) (rest : SufMap) (s : Tok) :
    scount ((k, v) :: rest) s = if k = s then v else scount rest s := by
  by_cases h : k = s <;> simp [scount, alookup, h]

theorem countOf_nil (p : String) (s : Tok) : countOf [] p s = 0 := rfl

theorem countOf_cons (k : String) (v : SufMap) (rest : Graph) (p : String) (s : Tok) :
    countOf ((k, v) :: rest) p s = if k = p then scount v s else countOf rest p s := by
  by_cases h : k = p <;> simp [countOf, scount, alookup, h]

theorem scount_bumpSuffix (sufs : SufMap) (d s : Tok) :
    scount (bumpSuffix sufs d) s = scount sufs s + (if s = d then 1 else 0) := by
  induction sufs with
  | nil =>
    by_cases h : d = s
    · subst h
      simp [bumpSuffix, scount_cons, scount_nil]
    · have h2 : s ≠ d := fun hc => h hc.symm
      simp [bumpSuffix, scount_cons, scount_nil, h, h2]
  | cons e rest ih =>
    obtain ⟨k, v⟩ := e
    by_cases hkd : k = d
    · subst hkd
      by_cases hks : k = s
      · subst hks
        simp [bumpSuffix, scount_cons]
      · have hsd : ¬s = k := fun hc => hks hc.symm
        simp [bumpSuffix, scount_cons, hks, hsd]
    · by_cases hks : k = s
      · subst hks
        have hsd : ¬k = d := hkd
        simp [bumpSuffix, scount_cons, hkd, hsd]
      · simp [bumpSuffix, scount_cons, hkd, hks, ih]

theorem countOf_addEdge (g : Graph) (src : String) (d : Tok) (p : String) (s : Tok) :
    countOf (addEdge g src d) p s =
      countOf g p s + (if p = src ∧ s = d then 1 else 0) := by
  induction g with
  | nil =>
    by_cases hp : src = p
    · subst hp
      by_cases hs : d = s
      · subst hs
        simp [addEdge, countOf_cons, countOf_nil, scount_cons, scount_nil]
      · have hs2 : ¬s = d := fun hc => hs hc.symm
        simp [addEdge, countOf_cons, countOf_nil, scount_cons, scount_nil, hs, hs2]
    · have hp2 : ¬p = src := fun hc => hp hc.symm
      simp [addEdge, countOf_cons, countOf_nil, hp, hp2]
  | cons e rest ih =>
    obtain ⟨k, v⟩ := e
    by_cases hk : k = src
    · subst hk
      by_cases hp : k = p
      · subst hp
        by_cases hs : s = d <;>
          simp [addEdge, countOf_cons, scount_bumpSuffix, hs]
      · have hp2 : ¬p = k := fun hc => hp hc.symm
        simp [addEdge, countOf_cons, hp, hp2]
    · by_cases hp : k = p
      · subst hp
        have hp2 : ¬k = src := hk
        simp [addEdge, countOf_cons, hk, hp2]
      · simp [addEdge, countOf_cons, hk, hp, ih]

/-! ### Counting lemmas for `update` -/

theorem scount_addSuffixCount (sufs : SufMap) (d s : Tok) (w : Nat) :
    scount (addSuffixCount sufs d w) s = scount sufs s + (if s = d then w else 0) := by
  induction sufs with
  | nil =>
    by_cases h : d = s
    · subst h
      simp [addSuffixCount, scount_cons, scount_nil]
    · have h2 : ¬s = d := fun hc => h hc.symm
      simp [addSuffixCount, scount_cons, scount_nil, h, h2]
  | cons e rest ih =>
    obtain ⟨k, v⟩ := e
    by_cases hkd : k = d
    · subst hkd
      by_cases hks : k = s
      · subst hks
        simp [addSuffixCount, scount_cons]
      · have hsd : ¬s = k := fun hc => hks hc.symm
        simp [addSuffixCount, scount_cons, hks, hsd]
    · by_cases hks : k = s
      · subst hks
        have hsd : ¬k = d := hkd
        simp [addSuffixCount, scount_cons, hkd, hsd]
      · simp [addSuffixCount, scount_cons, hkd, hks, ih]

/-- The total contribution a suffix dict of the other model makes to one
suffix token under `update`'s inner loop (summing duplicates, which a dict
never actually has). -/
def sContrib : SufMap → Tok → Nat
  | [], _ => 0
  | (k, w) :: rest, s => (if s = k then w else 0) + sContrib rest s

theorem scount_foldl_addSuffixCount (sufs : SufMap) (v : SufMap) (s : Tok) :
    scount (sufs.foldl (fun acc q => addSuffixCount acc q.1 q.2) v) s =
      scount v s + sContrib sufs s := by
  induction sufs generalizing v with
  | nil => simp [sContrib]
  | cons e rest ih =>
    obtain ⟨k, w⟩ := e
    simp only [List.foldl_cons, sContrib, ih, scount_addSuffixCount]
    omega

theorem sContrib_eq_zero {sufs : SufMap} {s : Tok} (h : s ∉ sufs.map (fun q => q.1)) :
    sContrib sufs s = 0 := by
  induction sufs with
  | nil => rfl
  | cons e rest ih =>
    simp only [List.map_cons, List.mem_cons] at h
    push_neg at h
    simp [sContrib, h.1, ih h.2]

theorem sContrib_eq_scount {sufs : SufMap} (hnd : (sufs.map (fun q => q.1)).Nodup) (s : Tok) :
    sContrib sufs s = scount sufs s := by
  induction sufs with
  | nil => rfl
  | cons e rest ih =>
    obtain ⟨k, w⟩ := e
    simp only [List.map_cons, List.nodup_cons] at hnd
    by_cases hks : k = s
    · subst hks
      simp [sContrib, scount_cons, sContrib_eq_zero hnd.1]
    · have hsk : ¬s = k := fun hc => hks hc.symm
      simp [sContrib, scount_cons, hks, hsk, ih hnd.2]

theorem countOf_mergeEntry (g : Graph) (pfx : String) (sufs : SufMap)
    (hnd : (sufs.map (fun q => q.1)).Nodup) (p : String) (s : Tok) :
    countOf (mergeEntry g pfx sufs) p s =
      countOf g p s + (if p = pfx then scount sufs s else 0) := by
  induction g with
  | nil =>
    by_cases hp : pfx = p
    · subst hp
      simp [mergeEntry, countOf_cons, countOf_nil]
    · have hp2 : ¬p = pfx := fun hc => hp hc.symm
      simp [mergeEntry, countOf_cons, countOf_nil, hp, hp2]
  | cons e rest ih =>
    obtain ⟨k, v⟩ := e
    by_cases hk : k = pfx
    · subst hk
      by_cases hp : k = p
      · subst hp
        simp [mergeEntry, countOf_cons, scount_foldl_addSuffixCount,
          sContrib_eq_scount hnd]
      · have hp2 : ¬p = k := fun hc => hp hc.symm
        simp [mergeEntry, countOf_cons, hp, hp2]
    · by_cases hp : k = p
      · subst hp
        have hp2 : ¬k = pfx := hk
        simp [mergeEntry, countOf_cons, hk, hp2]
      · simp [mergeEntry, countOf_cons, hk, hp, ih]

/-- The total contribution the other model's graph makes to one
(prefix key, suffix) pair under `update` (summing duplicate prefix keys,
which a dict never actually has). -/
def gContrib : Graph → String → Tok → Nat
  | [], _, _ => 0
  | (k, v) :: rest, p, s => (if p = k then scount v s else 0) + gContrib rest p s

theorem countOf_foldl_mergeEntry (og : Graph) (g : Graph)
    (hnd : ∀ e ∈ og, (e.2.map (fun q => q.1)).Nodup) (p : String) (s : Tok) :
    countOf (og.foldl (fun acc e => mergeEntry acc e.1 e.2) g) p s =
      countOf g p s + gContrib og p s := by
  induction og generalizing g with
  | nil => simp [gContrib]
  | cons e rest ih =>
    obtain ⟨k, v⟩ := e
    have hk : (v.map (fun q => q.1)).Nodup := hnd (k, v) (List.mem_cons_self _ _)
    have hrest : ∀ e ∈ rest, (e.2.map (fun q => q.1)).Nodup :=
      fun e he => hnd e (List.mem_cons_of_mem _ he)
    simp only [List.foldl_cons, gContrib, ih (mergeEntry g k v) hrest,
      countOf_mergeEntry g k v hk]
    omega

theorem gContrib_eq_zero {og : Graph} {p : String} (h : p ∉ og.map (fun e => e.1)) (s : Tok) :
    gContrib og p s = 0 := by
  induction og with
  | nil => rfl
  | cons e rest ih =>
    obtain ⟨k, v⟩ := e
    simp only [List.map_cons, List.mem_cons] at h
    push_neg at h
    simp [gContrib, h.1, ih h.2]

theorem gContrib_eq_countOf {og : Graph} (hnd : (og.map (fun e => e.1)).Nodup)
    (p : String) (s : Tok) : gContrib og p s = countOf og p s := by
  induction og with
  | nil => rfl
  | cons e rest ih =>
    obtain ⟨k, v⟩ := e
    simp only [List.map_cons, List.nodup_cons] at hnd
    by_cases hkp : k = p
    · subst hkp
      simp [gContrib, countOf_cons, gContrib_eq_zero hnd.1]
    · have hpk : ¬p = k := fun hc => hkp hc.symm
      simp [gContrib, countOf_cons, hkp, hpk, ih hnd.2]

theorem update_countOf {m other : Markov} (horder : m.n = other.n)
    (hnd : (other.graph.map (fun e => e.1)).Nodup)
    (hnds : ∀ e ∈ other.graph, (e.2.map (fun q => q.1)).Nodup) :
    m.update other = .ok ⟨m.n, other.graph.foldl (fun g e => mergeEntry g e.1 e.2) m.graph⟩ ∧
    ∀ p s, countOf (other.graph.foldl (fun g e => mergeEntry g e.1 e.2) m.graph) p s =
      countOf m.graph p s + countOf other.graph p s := by
  constructor
  · simp [Markov.update, horder]
  · intro p s
    rw [countOf_foldl_mergeEntry other.graph m.graph hnds p s,
      gContrib_eq_countOf hnd]

/-! ### Lemmas on `joinToks` and sampling -/

theorem joinToks_eq_none {l : List Tok} (x : Tok) (hx : x ∈ l) (hxs : x.isStr = false) :
    joinToks l = Option.none := by
  induction l with
  | nil => simp at hx
  | cons e rest ih =>
    cases e with
    | str s =>
      rcases List.mem_cons.mp hx with h | h
      · subst h
        simp [Tok.isStr] at hxs
      · simp [joinToks, ih h]
    | pynone => rfl
    | obj id => rfl

theorem joinToks_isSome {l : List Tok} {k : String} (h : joinToks l = some k) :
    ∀ x ∈ l, x.isStr = true := by
  intro x hx
  by_contra hc
  rw [joinToks_eq_none x hx (by simpa using hc)] at h
  exact Option.noConfusion h

/-- Cumulative probability mass of the first `k` entries of a distribution,
in its (insertion) iteration order. -/
def cumulMass (dist : List (Tok × ℚ)) (k : Nat) : ℚ :=
  ((dist.take k).map (fun q => q.2)).sum

theorem pickSuffix_spec (dist : List (Tok × ℚ)) (t upto : ℚ)
    (hne : dist ≠ []) (ht : t ≤ upto + ((dist.map (fun q => q.2)).sum)) :
    ∃ i, ∃ hi : i < dist.length,
      pickSuffix dist t upto = (dist.get ⟨i, hi⟩).1 ∧
      t ≤ upto + cumulMass dist (i + 1) ∧
      ∀ j < i, upto + cumulMass dist (j + 1) < t := by
  induction dist generalizing upto with
  | nil => exact absurd rfl hne
  | cons e rest ih =>
    obtain ⟨s, p⟩ := e
    by_cases h : upto + p ≥ t
    · refine ⟨0, by simp, ?_, ?_, ?_⟩
      · simp [pickSuffix, h]
      · simpa [cumulMass]
      · intro j hj
        omega
    · push_neg at h
      have hrne : rest ≠ [] := by
        intro hc
        subst hc
        simp at ht
        exact absurd ht (not_le.mpr h)
      have ht2 : t ≤ (upto + p) + ((rest.map (fun q => q.2)).sum) := by
        simp only [List.map_cons, List.sum_cons] at ht
        linarith
      obtain ⟨i, hi, heq, hge, hlt⟩ := ih (upto + p) hrne ht2
      refine ⟨i + 1, by simpa using Nat.succ_lt_succ hi, ?_, ?_, ?_⟩
      · simpa [pickSuffix, not_le.mpr h, not_le] using heq
      · have : cumulMass ((s, p) :: rest) (i + 2) = p + cumulMass rest (i + 1) := by
          simp [cumulMass]
        rw [this]
        linarith
      · intro j hj
        cases j with
        | zero =>
          simpa [cumulMass] using h
        | succ j2 =>
          have : cumulMass ((s, p) :: rest) (j2 + 2) = p + cumulMass rest (j2 + 1) := by
            simp [cumulMass]
          rw [this]
          have := hlt j2 (Nat.lt_of_succ_lt_succ hj)
          linarith

theorem pickSuffix_mem (dist : List (Tok × ℚ)) (t upto : ℚ)
    (hne : dist ≠ []) (ht : t ≤ upto + ((dist.map (fun q => q.2)).sum)) :
    pickSuffix dist t upto ∈ dist.map (fun q => q.1) := by
  obtain ⟨i, hi, heq, -, -⟩ := pickSuffix_spec dist t upto hne ht
  rw [heq]
  exact List.mem_map_of_mem _ (dist.get_mem i hi)

theorem sum_map_div (l : List ℚ) (T : ℚ) :
    (l.map (fun w => w / T)).sum = l.sum / T := by
  induction l with
  | nil => simp
  | cons w rest ih =>
    simp [List.map_cons, List.sum_cons, ih, add_div]

theorem get_suffixes_ok {m : Markov} {pfx : List Tok} {dist : List (Tok × ℚ)}
    (h : m.get_suffixes pfx = .ok dist) :
    (pfx.length : Int) = m.n - 1 ∧ ∃ ps, joinToks pfx = some ps ∧
      ((alookup ps m.graph = Option.none ∧ dist = []) ∨
       (∃ sufs, alookup ps m.graph = some sufs ∧
          dist = sufs.map
            (fun q => (q.1, (q.2 : ℚ) / (((sufs.map (fun q => q.2)).sum : Nat) : ℚ))))) := by
  unfold Markov.get_suffixes at h
  split at h
  · exact absurd h (by simp)
  · rename_i hlen
    push_neg at hlen
    refine ⟨hlen, ?_⟩
    split at h
    · exact absurd h (by simp)
    · rename_i ps hjoin
      refine ⟨ps, hjoin, ?_⟩
      split at h
      · rename_i hlook
        left
        exact ⟨hlook, by simpa using h.symm⟩
      · rename_i sufs hlook
        right
        exact ⟨sufs, hlook, by simpa using h.symm⟩

theorem total_pos {sufs : SufMap} (hne : sufs ≠ []) (hpos : ∀ q ∈ sufs, 1 ≤ q.2) :
    1 ≤ (sufs.map (fun q => q.2)).sum := by
  cases sufs with
  | nil => exact absurd rfl hne
  | cons q rest =>
    have h1 := hpos q (List.mem_cons_self _ _)
    simp only [List.map_cons, List.sum_cons]
    omega

theorem map_snd_scale_sum (sufs : SufMap) (T : ℚ) :
    ((sufs.map (fun q => (q.1, (q.2 : ℚ) / T))).map (fun q => q.2)).sum
      = (((sufs.map (fun q => q.2)).sum : Nat) : ℚ) / T := by
  induction sufs with
  | nil => simp
  | cons q rest ih =>
    simp only [List.map_cons, List.sum_cons, ih]
    push_cast
    ring

theorem dist_mass_one {sufs : SufMap} (hne : sufs ≠ []) (hpos : ∀ q ∈ sufs, 1 ≤ q.2) :
    ((sufs.map
        (fun q => (q.1, (q.2 : ℚ) / (((sufs.map (fun q => q.2)).sum : Nat) : ℚ)))).map
      (fun q => q.2)).sum = 1 := by
  have hT : (1 : Nat) ≤ (sufs.map (fun q => q.2)).sum := total_pos hne hpos
  have hT0 : (((sufs.map (fun q => q.2)).sum : Nat) : ℚ) ≠ 0 := by
    have : (0 : ℚ) < (((sufs.map (fun q => q.2)).sum : Nat) : ℚ) := by
      exact_mod_cast Nat.lt_of_lt_of_le Nat.zero_lt_one hT
    exact ne_of_gt this
  rw [map_snd_scale_sum]
  exact div_self hT0

theorem walk_ok_shape {m : Markov} {out : List Tok} :
    ∀ {ts : List ℚ} {w s : List Tok}, m.walk w s ts = .ok (some out) →
      ∃ mid, out = s ++ mid ++ [Tok.str ""] ∧ ∀ x ∈ mid, x ≠ Tok.str "" := by
  intro ts
  induction ts with
  | nil =>
    intro w s h
    exact absurd h (by simp [Markov.walk])
  | cons t ts2 ih =>
    intro w s h
    unfold Markov.walk at h
    split at h
    · exact absurd h (by simp)
    · rename_i suffix hr
      split at h
      · rename_i hterm
        simp only [Except.ok.injEq, Option.some.injEq] at h
        exact ⟨[], by simp [← h, hterm], by simp⟩
      · rename_i hterm
        obtain ⟨mid2, hout, hmid⟩ := ih h
        refine ⟨suffix :: mid2, by simp [hout], ?_⟩
        intro x hx
        rcases List.mem_cons.mp hx with h1 | h1
        · rw [h1]
          exact hterm
        · exact hmid x h1

/-! ### Preservation of the graph invariant -/

theorem bumpSuffix_eq_addSuffixCount (sufs : SufMap) (d : Tok) :
    bumpSuffix sufs d = addSuffixCount sufs d 1 := by
  induction sufs with
  | nil => rfl
  | cons e rest ih =>
    obtain ⟨k, v⟩ := e
    by_cases h : k = d <;> simp [bumpSuffix, addSuffixCount, h, ih]

theorem mem_keys_addSuffixCount {sufs : SufMap} {d x : Tok} {w : Nat}
    (h : x ∈ (addSuffixCount sufs d w).map (fun q => q.1)) :
    x ∈ sufs.map (fun q => q.1) ∨ x = d := by
  induction sufs with
  | nil =>
    simp [addSuffixCount] at h
    right
    exact h
  | cons e rest ih =>
    obtain ⟨k, v⟩ := e
    by_cases hkd : k = d
    · simp only [addSuffixCount, if_pos hkd, List.map_cons, List.mem_cons] at h
      rcases h with h | h
      · left
        simp [h]
      · left
        simp [h]
    · simp only [addSuffixCount, if_neg hkd, List.map_cons, List.mem_cons] at h
      rcases h with h | h
      · left
        simp [h]
      · rcases ih h with h2 | h2
        · left
          simp [h2]
        · right
          exact h2

theorem nodup_keys_addSuffixCount {sufs : SufMap} (d : Tok) (w : Nat)
    (h : (sufs.map (fun q => q.1)).Nodup) :
    ((addSuffixCount sufs d w).map (fun q => q.1)).Nodup := by
  induction sufs with
  | nil => simp [addSuffixCount]
  | cons e rest ih =>
    obtain ⟨k, v⟩ := e
    simp only [List.map_cons, List.nodup_cons] at h
    by_cases hkd : k = d
    · simp only [addSuffixCount, if_pos hkd, List.map_cons, List.nodup_cons]
      exact h
    · simp only [addSuffixCount, if_neg hkd, List.map_cons, List.nodup_cons]
      refine ⟨?_, ih h.2⟩
      intro hc
      rcases mem_keys_addSuffixCount hc with h2 | h2
      · exact h.1 h2
      · exact hkd h2

theorem addSuffixCount_ne (sufs : SufMap) (d : Tok) (w : Nat) :
    addSuffixCount sufs d w ≠ [] := by
  cases sufs with
  | nil => simp [addSuffixCount]
  | cons e rest =>
    obtain ⟨k, v⟩ := e
    by_cases h : k = d <;> simp [addSuffixCount, h]

theorem addSuffixCount_pos {sufs : SufMap} {d : Tok} {w : Nat}
    (hpos : ∀ q ∈ sufs, 1 ≤ q.2) (hw : 1 ≤ w) :
    ∀ q ∈ addSuffixCount sufs d w, 1 ≤ q.2 := by
  induction sufs with
  | nil =>
    intro q hq
    simp [addSuffixCount] at hq
    simp [hq, hw]
  | cons e rest ih =>
    obtain ⟨k, v⟩ := e
    intro q hq
    by_cases hkd : k = d
    · simp only [addSuffixCount, if_pos hkd, List.mem_cons] at hq
      rcases hq with hq | hq
      · have := hpos (k, v) (List.mem_cons_self _ _)
        simp [hq]
        omega
      · exact hpos q (List.mem_cons_of_mem _ hq)
    · simp only [addSuffixCount, if_neg hkd, List.mem_cons] at hq
      rcases hq with hq | hq
      · exact hpos q (by simp [hq])
      · exact ih (fun r hr => hpos r (List.mem_cons_of_mem _ hr)) q hq

theorem foldl_addSuffixCount_good {sufs : SufMap} (hw : ∀ q ∈ sufs, 1 ≤ q.2) :
    ∀ {v : SufMap}, (v.map (fun q => q.1)).Nodup → v ≠ [] → (∀ q ∈ v, 1 ≤ q.2) →
      (((sufs.foldl (fun acc q => addSuffixCount acc q.1 q.2) v).map (fun q => q.1)).Nodup ∧
        sufs.foldl (fun acc q => addSuffixCount acc q.1 q.2) v ≠ [] ∧
        ∀ q ∈ sufs.foldl (fun acc q => addSuffixCount acc q.1 q.2) v, 1 ≤ q.2) := by
  induction sufs with
  | nil =>
    intro v hnd hne hpos
    exact ⟨hnd, hne, hpos⟩
  | cons e rest ih =>
    intro v hnd hne hpos
    have hwrest : ∀ q ∈ rest, 1 ≤ q.2 := fun q hq => hw q (List.mem_cons_of_mem _ hq)
    have hwe : 1 ≤ e.2 := hw e (List.mem_cons_self _ _)
    simp only [List.foldl_cons]
    exact ih hwrest (nodup_keys_addSuffixCount e.1 e.2 hnd)
      (addSuffixCount_ne v e.1 e.2) (addSuffixCount_pos hpos hwe)

theorem mem_keys_addEdge {g : Graph} {s x : String} {d : Tok}
    (h : x ∈ (addEdge g s d).map (fun e => e.1)) :
    x ∈ g.map (fun e => e.1) ∨ x = s := by
  induction g with
  | nil =>
    simp [addEdge] at h
    right
    exact h
  | cons e rest ih =>
    obtain ⟨k, v⟩ := e
    by_cases hks : k = s
    · simp only [addEdge, if_pos hks, List.map_cons, List.mem_cons] at h
      rcases h with h | h
      · left
        simp [h]
      · left
        simp [h]
    · simp only [addEdge, if_neg hks, List.map_cons, List.mem_cons] at h
      rcases h with h | h
      · left
        simp [h]
      · rcases ih h with h2 | h2
        · left
          simp [h2]
        · right
          exact h2

theorem goodGraph_addEdge {g : Graph} (hg : GoodGraph g) (s : String) (d : Tok) :
    GoodGraph (addEdge g s d) := by
  obtain ⟨hnd, hent⟩ := hg
  induction g with
  | nil =>
    refine ⟨by simp [addEdge], ?_⟩
    intro e he
    simp [addEdge] at he
    subst he
    exact ⟨by simp, by simp, by simp⟩
  | cons e0 rest ih =>
    obtain ⟨k, v⟩ := e0
    simp only [List.map_cons, List.nodup_cons] at hnd
    have hv := hent (k, v) (List.mem_cons_self _ _)
    have hrest : ∀ e ∈ rest, (e.2.map (fun q => q.1)).Nodup ∧ e.2 ≠ [] ∧ ∀ q ∈ e.2, 1 ≤ q.2 :=
      fun e he => hent e (List.mem_cons_of_mem _ he)
    by_cases hks : k = s
    · refine ⟨?_, ?_⟩
      · simp only [addEdge, if_pos hks, List.map_cons, List.nodup_cons]
        exact hnd
      · intro e he
        simp only [addEdge, if_pos hks, List.mem_cons] at he
        rcases he with he | he
        · subst he
          simp only [bumpSuffix_eq_addSuffixCount]
          exact ⟨nodup_keys_addSuffixCount d 1 hv.1, addSuffixCount_ne _ _ _,
            addSuffixCount_pos hv.2.2 (le_refl 1)⟩
        · exact hrest e he
    · obtain ⟨ih1, ih2⟩ := ih hnd.2 hrest
      refine ⟨?_, ?_⟩
      · simp only [addEdge, if_neg hks, List.map_cons, List.nodup_cons]
        refine ⟨?_, ih1⟩
        intro hc
        rcases mem_keys_addEdge hc with h2 | h2
        · exact hnd.1 h2
        · exact hks h2
      · intro e he
        simp only [addEdge, if_neg hks, List.mem_cons] at he
        rcases he with he | he
        · subst he
          exact hv
        · exact ih2 e he

theorem mem_keys_mergeEntry {g : Graph} {pfx x : String} {sufs : SufMap}
    (h : x ∈ (mergeEntry g pfx sufs).map (fun e => e.1)) :
    x ∈ g.map (fun e => e.1) ∨ x = pfx := by
  induction g with
  | nil =>
    simp [mergeEntry] at h
    right
    exact h
  | cons e rest ih =>
    obtain ⟨k, v⟩ := e
    by_cases hk : k = pfx
    · simp only [mergeEntry, if_pos hk, List.map_cons, List.mem_cons] at h
      rcases h with h | h
      · left
        simp [h]
      · left
        simp [h]
    · simp only [mergeEntry, if_neg hk, List.map_cons, List.mem_cons] at h
      rcases h with h | h
      · left
        simp [h]
      · rcases ih h with h2 | h2
        · left
          simp [h2]
        · right
          exact h2

theorem goodGraph_mergeEntry {g : Graph} (hg : GoodGraph g) {pfx : String} {sufs : SufMap}
    (hnd : (sufs.map (fun q => q.1)).Nodup) (hne : sufs ≠ [])
    (hpos : ∀ q ∈ sufs, 1 ≤ q.2) :
    GoodGraph (mergeEntry g pfx sufs) := by
  obtain ⟨hgnd, hent⟩ := hg
  induction g with
  | nil =>
    refine ⟨by simp [mergeEntry], ?_⟩
    intro e he
    simp [mergeEntry] at he
    subst he
    exact ⟨hnd, hne, hpos⟩
  | cons e0 rest ih =>
    obtain ⟨k, v⟩ := e0
    simp only [List.map_cons, List.nodup_cons] at hgnd
    have hv := hent (k, v) (List.mem_cons_self _ _)
    have hrest : ∀ e ∈ rest, (e.2.map (fun q => q.1)).Nodup ∧ e.2 ≠ [] ∧ ∀ q ∈ e.2, 1 ≤ q.2 :=
      fun e he => hent e (List.mem_cons_of_mem _ he)
    by_cases hk : k = pfx
    · refine ⟨?_, ?_⟩
      · simp only [mergeEntry, if_pos hk, List.map_cons, List.nodup_cons]
        exact hgnd
      · intro e he
        simp only [mergeEntry, if_pos hk, List.mem_cons] at he
        rcases he with he | he
        · subst he
          exact foldl_addSuffixCount_good hpos hv.1 hv.2.1 hv.2.2
        · exact hrest e he
    · obtain ⟨ih1, ih2⟩ := ih hgnd.2 hrest
      refine ⟨?_, ?_⟩
      · simp only [mergeEntry, if_neg hk, List.map_cons, List.nodup_cons]
        refine ⟨?_, ih1⟩
        intro hc
        rcases mem_keys_mergeEntry hc with h2 | h2
        · exact hgnd.1 h2
        · exact hk h2
      · intro e he
        simp only [mergeEntry, if_neg hk, List.mem_cons] at he
        rcases he with he | he
        · subst he
          exact hv
        · exact ih2 e he

theorem goodGraph_foldl_mergeEntry {og : Graph}
    (hog : ∀ e ∈ og, (e.2.map (fun q => q.1)).Nodup ∧ e.2 ≠ [] ∧ ∀ q ∈ e.2, 1 ≤ q.2) :
    ∀ {g : Graph}, GoodGraph g →
      GoodGraph (og.foldl (fun acc e => mergeEntry acc e.1 e.2) g) := by
  induction og with
  | nil =>
    intro g hg
    exact hg
  | cons e rest ih =>
    intro g hg
    have he := hog e (List.mem_cons_self _ _)
    have hrest : ∀ e2 ∈ rest, (e2.2.map (fun q => q.1)).Nodup ∧ e2.2 ≠ [] ∧
        ∀ q ∈ e2.2, 1 ≤ q.2 := fun e2 he2 => hog e2 (List.mem_cons_of_mem _ he2)
    simp only [List.foldl_cons]
    exact ih hrest (goodGraph_mergeEntry hg he.1 he.2.1 he.2.2)

/-- Well-formedness of a mutating call: the other model handed to `update`
must itself carry a dict-shaped graph of positive counts (as every model
built through the class API does). -/
def Op.Good : Op → Prop
  | .add _ => True
  | .upd other => GoodGraph other.graph

instance : DecidablePred Op.Good := fun op =>
  match op with
  | .add _ => isTrue trivial
  | .upd other => (inferInstance : Decidable (GoodGraph other.graph))

theorem add_ngram_ok {m m2 : Markov} {ngram : List Tok} (h : m.add_ngram ngram = .ok m2) :
    (ngram.length : Int) = m.n ∧ ∃ src dst, joinToks ngram.dropLast = some src ∧
      ngram.getLast? = some dst ∧ m2 = ⟨m.n, addEdge m.graph src dst⟩ := by
  unfold Markov.add_ngram at h
  split at h
  · exact absurd h (by simp)
  · rename_i hlen
    push_neg at hlen
    refine ⟨hlen, ?_⟩
    split at h
    · exact absurd h (by simp)
    · rename_i src hjoin
      split at h
      · exact absurd h (by simp)
      · rename_i dst hlast
        refine ⟨src, dst, hjoin, hlast, ?_⟩
        simp only [Except.ok.injEq] at h
        rw [← h]

theorem update_ok {m other m2 : Markov} (h : m.update other = .ok m2) :
    m.n = other.n ∧
      m2 = ⟨m.n, other.graph.foldl (fun g e => mergeEntry g e.1 e.2) m.graph⟩ := by
  unfold Markov.update at h
  split at h
  · exact absurd h (by simp)
  · rename_i horder
    push_neg at horder
    refine ⟨horder, ?_⟩
    simp only [Except.ok.injEq] at h
    rw [← h]

theorem applyOp_add (m : Markov) (ngram : List Tok) :
    applyOp m (.add ngram) = match m.add_ngram ngram with
      | .ok m2 => m2
      | .error _ => m := rfl

theorem applyOp_upd (m other : Markov) :
    applyOp m (.upd other) = match m.update other with
      | .ok m2 => m2
      | .error _ => m := rfl

theorem applyOp_good {m : Markov} {op : Op} (hm : GoodGraph m.graph) (hop : Op.Good op) :
    GoodGraph (applyOp m op).graph ∧
      ∀ p s, countOf m.graph p s ≤ countOf (applyOp m op).graph p s := by
  cases op with
  | add ngram =>
    rw [applyOp_add]
    cases hr : m.add_ngram ngram with
    | error e => exact ⟨hm, fun p s => le_refl _⟩
    | ok m2 =>
      obtain ⟨-, src, dst, -, -, hm2⟩ := add_ngram_ok hr
      subst hm2
      refine ⟨goodGraph_addEdge hm src dst, ?_⟩
      intro p s
      rw [countOf_addEdge]
      omega
  | upd other =>
    rw [applyOp_upd]
    cases hr : m.update other with
    | error e => exact ⟨hm, fun p s => le_refl _⟩
    | ok m2 =>
      obtain ⟨-, hm2⟩ := update_ok hr
      subst hm2
      have hog : ∀ e ∈ other.graph, (e.2.map (fun q => q.1)).Nodup ∧ e.2 ≠ [] ∧
          ∀ q ∈ e.2, 1 ≤ q.2 := hop.2
      refine ⟨goodGraph_foldl_mergeEntry hog hm, ?_⟩
      intro p s
      rw [countOf_foldl_mergeEntry other.graph m.graph (fun e he => (hog e he).1) p s]
      omega

theorem runOps_good {ops : List Op} :
    ∀ {m : Markov}, GoodGraph m.graph → (∀ op ∈ ops, Op.Good op) →
      GoodGraph (runOps m ops).graph ∧
        ∀ p s, countOf m.graph p s ≤ countOf (runOps m ops).graph p s := by
  induction ops with
  | nil =>
    intro m hm _
    exact ⟨hm, fun p s => le_refl _⟩
  | cons op rest ih =>
    intro m hm hops
    have hop := hops op (List.mem_cons_self _ _)
    have hrest : ∀ op2 ∈ rest, Op.Good op2 := fun op2 h2 => hops op2 (List.mem_cons_of_mem _ h2)
    obtain ⟨h1, h2⟩ := applyOp_good hm hop
    obtain ⟨h3, h4⟩ := ih h1 hrest
    refine ⟨by simpa [runOps] using h3, ?_⟩
    intro p s
    calc countOf m.graph p s ≤ countOf (applyOp m op).graph p s := h2 p s
      _ ≤ countOf (runOps (applyOp m op) rest).graph p s := h4 p s
      _ = countOf (runOps m (op :: rest)).graph p s := by simp [runOps]

/-! ### The claims -/

/-- The model of the spec's running example: order 2, `add_ngram(["the","cat"])`
once and `add_ngram(["the","dog"])` twice, starting from the empty graph that
construction with order 2 yields. -/
def modelTheCatDog : Markov :=
  runOps ⟨2, []⟩
    [.add [Tok.str "the", Tok.str "cat"],
     .add [Tok.str "the", Tok.str "dog"],
     .add [Tok.str "the", Tok.str "dog"]]

/-- Order-3 model fed one n-gram whose prefix tokens are `("a","bc")`. -/
def collideA : Markov :=
  applyOp ⟨3, []⟩ (.add [Tok.str "a", Tok.str "bc", Tok.str "x"])

/-- C1: for a prefix of exactly `order - 1` tokens, `get_suffixes` returns the
empty mapping when the concatenated prefix key is absent from the graph, and
otherwise a mapping giving each recorded suffix the probability
`count / total` with `total` the sum of the counts under that key; for
order 2, after `add_ngram(["the","cat"])` once and `add_ngram(["the","dog"])`
twice, `get_suffixes(["the"])` is `{"cat": 1/3, "dog": 2/3}`. -/
theorem claim_C1 :
    (∀ (m : Markov) (pfx : List Tok) (ps : String),
      (pfx.length : Int) = m.n - 1 → joinToks pfx = some ps →
      (alookup ps m.graph = Option.none → m.get_suffixes pfx = .ok []) ∧
      (∀ sufs, alookup ps m.graph = some sufs →
        ∃ dist, m.get_suffixes pfx = .ok dist ∧
          dist.map (fun q => q.1) = sufs.map (fun q => q.1) ∧
          ∀ s c, alookup s sufs = some c →
            alookup s dist =
              some ((c : ℚ) / (((sufs.map (fun q => q.2)).sum : Nat) : ℚ)))) ∧
    modelTheCatDog.get_suffixes [Tok.str "the"]
      = .ok [(Tok.str "cat", 1/3), (Tok.str "dog", 2/3)] := by
  constructor
  · intro m pfx ps hlen hjoin
    have hcond : ¬((pfx.length : Int) ≠ m.n - 1) := fun hc => hc hlen
    constructor
    · intro hlook
      unfold Markov.get_suffixes
      rw [if_neg hcond]
      simp only [hjoin, hlook]
    · intro sufs hlook
      refine ⟨sufs.map
        (fun q => (q.1, (q.2 : ℚ) / (((sufs.map (fun q => q.2)).sum : Nat) : ℚ))), ?_, ?_, ?_⟩
      · unfold Markov.get_suffixes
        rw [if_neg hcond]
        simp only [hjoin, hlook]
      · rw [List.map_map]
        rfl
      · intro s c hc
        rw [alookup_map (fun c2 : Nat => (c2 : ℚ) / (((sufs.map (fun q => q.2)).sum : Nat) : ℚ))
          sufs s, hc]
        rfl
  · have hm : modelTheCatDog = ⟨2, [("the", [(Tok.str "cat", 1), (Tok.str "dog", 2)])]⟩ := by
      decide
    rw [hm]
    norm_num [Markov.get_suffixes, joinToks, alookup]

theorem claim_C1_witness :
    modelTheCatDog.get_suffixes [Tok.str "cats"] = .ok [] :=
  (claim_C1.1 modelTheCatDog [Tok.str "cats"] "cats" (by decide) (by decide)).1 (by decide)

/-- C2: `add_ngram` fails with `InvalidArgument` (a `ValueError`) when the
token sequence length differs from the order, and on exactly `order` tokens
(whose prefix concatenates) increments `graph[prefix key][destination]` by
exactly 1 — initializing to 1 when unseen — changing no other entry. -/
theorem claim_C2 :
    ∀ (m : Markov) (ngram : List Tok),
      ((ngram.length : Int) ≠ m.n → m.add_ngram ngram = .error .valueError) ∧
      ((ngram.length : Int) = m.n →
        ∀ src, joinToks ngram.dropLast = some src →
        ∀ dst, ngram.getLast? = some dst →
        ∃ m2, m.add_ngram ngram = .ok m2 ∧ m2.n = m.n ∧
          ∀ p s, countOf m2.graph p s =
            countOf m.graph p s + (if p = src ∧ s = dst then 1 else 0)) := by
  intro m ngram
  constructor
  · intro hlen
    unfold Markov.add_ngram
    rw [if_pos hlen]
  · intro hlen src hjoin dst hlast
    refine ⟨⟨m.n, addEdge m.graph src dst⟩, ?_, rfl, ?_⟩
    · unfold Markov.add_ngram
      rw [if_neg (fun hc => hc hlen)]
      simp only [hjoin, hlast]
    · intro p s
      exact countOf_addEdge m.graph src dst p s

theorem claim_C2_witness :
    ∃ m2, (⟨2, []⟩ : Markov).add_ngram [Tok.str "a", Tok.str "b"] = .ok m2 ∧
      m2.n = (⟨2, []⟩ : Markov).n ∧
      ∀ p s, countOf m2.graph p s =
        countOf (⟨2, []⟩ : Markov).graph p s +
          (if p = "a" ∧ s = Tok.str "b" then 1 else 0) :=
  (claim_C2 ⟨2, []⟩ [Tok.str "a", Tok.str "b"]).2 (by decide) "a" (by decide)
    (Tok.str "b") (by decide)

/-- C3: `update` fails with `ValueMismatch` (a `ValueError`) when the orders
differ, mutating nothing; with equal orders, every (prefix key, suffix) count
of the result is the sum of the two models' counts, so a second identical
`update` adds the other model's counts again instead of being idempotent. -/
theorem claim_C3 :
    ∀ m other : Markov,
      (m.n ≠ other.n → m.update other = .error .valueError ∧ applyOp m (.upd other) = m) ∧
      (m.n = other.n → GoodGraph other.graph →
        ∃ m2, m.update other = .ok m2 ∧ m2.n = m.n ∧
          (∀ p s, countOf m2.graph p s = countOf m.graph p s + countOf other.graph p s) ∧
          ∃ m3, m2.update other = .ok m3 ∧
            ∀ p s, countOf m3.graph p s =
              countOf m.graph p s + 2 * countOf other.graph p s) := by
  intro m other
  constructor
  · intro hne
    have herr : m.update other = .error .valueError := by
      unfold Markov.update
      rw [if_pos hne]
    refine ⟨herr, ?_⟩
    rw [applyOp_upd, herr]
  · intro horder hgood
    have hnds : ∀ e ∈ other.graph, (e.2.map (fun q => q.1)).Nodup :=
      fun e he => (hgood.2 e he).1
    obtain ⟨hok, hcount⟩ := update_countOf horder hgood.1 hnds
    refine ⟨_, hok, rfl, hcount, ?_⟩
    obtain ⟨hok2, hcount2⟩ := update_countOf (m := ⟨m.n,
      other.graph.foldl (fun g e => mergeEntry g e.1 e.2) m.graph⟩) horder hgood.1 hnds
    refine ⟨_, hok2, ?_⟩
    intro p s
    have h1 := hcount p s
    have h2 := hcount2 p s
    simp only [h1] at h2
    simp only [h2]
    omega

theorem claim_C3_witness :
    ((⟨2, []⟩ : Markov).n ≠ (⟨3, []⟩ : Markov).n →
      (⟨2, []⟩ : Markov).update ⟨3, []⟩ = .error .valueError ∧
        applyOp ⟨2, []⟩ (.upd ⟨3, []⟩) = ⟨2, []⟩) ∧
    ∃ m2, (⟨2, [("a", [(Tok.str "b", 1)])]⟩ : Markov).update
        ⟨2, [("a", [(Tok.str "b", 2), (Tok.str "c", 1)])]⟩ = .ok m2 ∧
      m2.n = 2 ∧
      (∀ p s, countOf m2.graph p s =
        countOf [("a", [(Tok.str "b", 1)])] p s +
          countOf [("a", [(Tok.str "b", 2), (Tok.str "c", 1)])] p s) ∧
      ∃ m3, m2.update ⟨2, [("a", [(Tok.str "b", 2), (Tok.str "c", 1)])]⟩ = .ok m3 ∧
        ∀ p s, countOf m3.graph p s =
          countOf [("a", [(Tok.str "b", 1)])] p s +
            2 * countOf [("a", [(Tok.str "b", 2), (Tok.str "c", 1)])] p s :=
  ⟨(claim_C3 ⟨2, []⟩ ⟨3, []⟩).1,
   (claim_C3 ⟨2, [("a", [(Tok.str "b", 1)])]⟩
      ⟨2, [("a", [(Tok.str "b", 2), (Tok.str "c", 1)])]⟩).2 rfl (by decide)⟩

/-- C4: prefix keying is lossy by concatenation: two prefixes of the right
length whose separator-free concatenations are the same string address the
same graph entry, both for ingestion and for the probability view; for
order 3, counts added under `("a","bc")` show up for `("ab","c")`. -/
theorem claim_C4 :
    (∀ (m : Markov) (p1 p2 : List Tok) (k : String),
      p1.length = p2.length →
      joinToks p1 = some k → joinToks p2 = some k →
      m.get_suffixes p1 = m.get_suffixes p2 ∧
      ∀ d, m.add_ngram (p1 ++ [d]) = m.add_ngram (p2 ++ [d])) ∧
    collideA.get_suffixes [Tok.str "ab", Tok.str "c"] = .ok [(Tok.str "x", 1)] := by
  constructor
  · intro m p1 p2 k hlen hj1 hj2
    constructor
    · unfold Markov.get_suffixes
      rw [hlen, hj1, hj2]
    · intro d
      unfold Markov.add_ngram
      rw [List.dropLast_concat, List.dropLast_concat, hj1, hj2,
        List.getLast?_concat, List.getLast?_concat]
      simp only [List.length_append, hlen]
  · have hm : collideA = ⟨3, [("abc", [(Tok.str "x", 1)])]⟩ := by decide
    rw [hm]
    have hs : ("ab" ++ "c" : String) = "abc" := by decide
    norm_num [Markov.get_suffixes, joinToks, alookup, hs]

theorem claim_C4_witness :
    collideA.get_suffixes [Tok.str "a", Tok.str "bc"] =
      collideA.get_suffixes [Tok.str "ab", Tok.str "c"] :=
  ((claim_C4.1 collideA [Tok.str "a", Tok.str "bc"] [Tok.str "ab", Tok.str "c"] "abc"
    (by decide) (by decide) (by decide)).1)

/-- C5: with a threshold `t` in `[0, 1)`, `random_suffix` returns the first
suffix in the distribution's iteration order whose cumulative probability
mass reaches `t`; it never returns a value outside the key set of
`get_suffixes`, and on an empty distribution it returns `None`, which is
distinct from every real token. -/
theorem claim_C5 :
    ∀ (m : Markov) (pfx : List Tok) (t : ℚ) (dist : List (Tok × ℚ)),
      GoodGraph m.graph → 0 ≤ t → t < 1 →
      m.get_suffixes pfx = .ok dist →
      ∃ r, m.random_suffix pfx t = .ok r ∧
        (dist = [] → r = Tok.pynone) ∧
        (∀ s2, Tok.pynone ≠ Tok.str s2) ∧
        (dist ≠ [] →
          r ∈ dist.map (fun q => q.1) ∧
          ∃ i, ∃ hi : i < dist.length, r = (dist.get ⟨i, hi⟩).1 ∧
            t ≤ cumulMass dist (i + 1) ∧ ∀ j < i, cumulMass dist (j + 1) < t) := by
  intro m pfx t dist hgood ht0 ht1 hok
  refine ⟨pickSuffix dist t 0, ?_, ?_, ?_, ?_⟩
  · unfold Markov.random_suffix
    rw [hok]
  · intro h
    subst h
    rfl
  · intro s2 hc
    exact Tok.noConfusion hc
  · intro hne
    obtain ⟨hlen, ps, hjoin, hcase⟩ := get_suffixes_ok hok
    rcases hcase with ⟨-, hd⟩ | ⟨sufs, hlook, hd⟩
    · exact absurd hd hne
    · have hmem := alookup_mem hlook
      have hv := hgood.2 (ps, sufs) hmem
      have hmass : (dist.map (fun q => q.2)).sum = 1 := by
        rw [hd]
        exact dist_mass_one hv.2.1 hv.2.2
      have hts : t ≤ 0 + (dist.map (fun q => q.2)).sum := by
        rw [hmass]
        linarith
      obtain ⟨i, hi, heq, hge, hlt⟩ := pickSuffix_spec dist t 0 hne hts
      refine ⟨?_, i, hi, heq, ?_, ?_⟩
      · rw [heq]
        exact List.mem_map_of_mem _ (dist.get_mem i hi)
      · linarith [hge]
      · intro j hj
        have := hlt j hj
        linarith

theorem claim_C5_witness :
    ∃ r, modelTheCatDog.random_suffix [Tok.str "the"] (1/2) = .ok r ∧
      (([(Tok.str "cat", (1 : ℚ)/3), (Tok.str "dog", (2 : ℚ)/3)] :
          List (Tok × ℚ)) = [] → r = Tok.pynone) ∧
      (∀ s2, Tok.pynone ≠ Tok.str s2) ∧
      (([(Tok.str "cat", (1 : ℚ)/3), (Tok.str "dog", (2 : ℚ)/3)] :
          List (Tok × ℚ)) ≠ [] →
        r ∈ ([(Tok.str "cat", (1 : ℚ)/3), (Tok.str "dog", (2 : ℚ)/3)] :
            List (Tok × ℚ)).map (fun q => q.1) ∧
        ∃ i, ∃ hi : i < ([(Tok.str "cat", (1 : ℚ)/3), (Tok.str "dog", (2 : ℚ)/3)] :
            List (Tok × ℚ)).length,
          r = (([(Tok.str "cat", (1 : ℚ)/3), (Tok.str "dog", (2 : ℚ)/3)] :
              List (Tok × ℚ)).get ⟨i, hi⟩).1 ∧
          (1 : ℚ)/2 ≤ cumulMass [(Tok.str "cat", (1 : ℚ)/3), (Tok.str "dog", (2 : ℚ)/3)] (i + 1) ∧
          ∀ j < i, cumulMass [(Tok.str "cat", (1 : ℚ)/3), (Tok.str "dog", (2 : ℚ)/3)] (j + 1)
            < (1 : ℚ)/2) := by
  have hget : modelTheCatDog.get_suffixes [Tok.str "the"]
      = .ok [(Tok.str "cat", (1 : ℚ)/3), (Tok.str "dog", (2 : ℚ)/3)] := by
    have hm : modelTheCatDog = ⟨2, [("the", [(Tok.str "cat", 1), (Tok.str "dog", 2)])]⟩ := by
      decide
    rw [hm]
    norm_num [Markov.get_suffixes, joinToks, alookup]
  exact claim_C5 modelTheCatDog [Tok.str "the"] (1/2)
    [(Tok.str "cat", (1 : ℚ)/3), (Tok.str "dog", (2 : ℚ)/3)]
    (by decide) (by norm_num) (by norm_num) hget

/-- C6: `random_sequence` rejects a starting prefix whose length is not
`order - 1` with `InvalidArgument`; otherwise the output starts as the
prefix, each step samples a suffix for the window of the last `order - 1`
generated tokens, appends it, and the walk returns exactly when the sampled
suffix is the empty-string terminal — so a normally returned sequence ends
with the terminal and no earlier sampled element equals it. -/
theorem claim_C6 :
    ∀ (m : Markov) (pfx : List Tok) (ts : List ℚ),
      ((pfx.length : Int) ≠ m.n - 1 → m.random_sequence pfx ts = .error .valueError) ∧
      ((pfx.length : Int) = m.n - 1 →
        (∀ t ts2, m.random_sequence pfx (t :: ts2) =
          match m.random_suffix pfx t with
          | .error e => .error e
          | .ok suffix =>
            if suffix = Tok.str "" then .ok (some (pfx ++ [suffix]))
            else m.walk (windowPush pfx (m.n - 1).toNat suffix) (pfx ++ [suffix]) ts2) ∧
        ∀ out, m.random_sequence pfx ts = .ok (some out) →
          ∃ mid, out = pfx ++ mid ++ [Tok.str ""] ∧ ∀ x ∈ mid, x ≠ Tok.str "") := by
  intro m pfx ts
  constructor
  · intro h
    unfold Markov.random_sequence
    rw [if_pos h]
  · intro hlen
    constructor
    · intro t ts2
      unfold Markov.random_sequence
      rw [if_neg (fun hc => hc hlen)]
      rfl
    · intro out hout
      unfold Markov.random_sequence at hout
      rw [if_neg (fun hc => hc hlen)] at hout
      exact walk_ok_shape hout

theorem claim_C6_witness :
    (⟨2, []⟩ : Markov).random_sequence [] [] = .error .valueError ∧
    ∃ mid, [Tok.str "a", Tok.str ""] = [Tok.str "a"] ++ mid ++ [Tok.str ""] ∧
      ∀ x ∈ mid, x ≠ Tok.str "" := by
  constructor
  · exact (claim_C6 ⟨2, []⟩ [] []).1 (by decide)
  · have hrun : (⟨2, [("a", [(Tok.str "", 1)])]⟩ : Markov).random_sequence
        [Tok.str "a"] [1/2] = .ok (some [Tok.str "a", Tok.str ""]) := by
      norm_num [Markov.random_sequence, Markov.walk, Markov.random_suffix,
        Markov.get_suffixes, joinToks, alookup, pickSuffix]
    exact ((claim_C6 ⟨2, [("a", [(Tok.str "", 1)])]⟩ [Tok.str "a"] [1/2]).2
      (by decide)).2 [Tok.str "a", Tok.str ""] hrun

/-- C7: round-trip law between the two probability views: whenever
`get_suffixes` succeeds, `get_ngrams` succeeds with key set exactly
`{prefix + (s,) : s in get_suffixes}` and with the same probability stored
under `prefix + (s,)` as under `s`. -/
theorem claim_C7 :
    ∀ (m : Markov) (pfx : List Tok) (dist : List (Tok × ℚ)),
      m.get_suffixes pfx = .ok dist →
      ∃ ng, m.get_ngrams pfx = .ok ng ∧
        ng.map (fun q => q.1) = (dist.map (fun q => q.1)).map (fun s => pfx ++ [s]) ∧
        ∀ s, alookup (pfx ++ [s]) ng = alookup s dist := by
  intro m pfx dist hok
  refine ⟨dist.map (fun q => (pfx ++ [q.1], q.2)), ?_, ?_, ?_⟩
  · unfold Markov.get_ngrams
    rw [hok]
  · rw [List.map_map, List.map_map]
    rfl
  · intro s
    have hinj : ∀ a b : Tok, pfx ++ [a] = pfx ++ [b] → a = b := by
      intro a b hab
      simpa using hab
    exact alookup_map_key (fun s2 => pfx ++ [s2]) hinj dist s

theorem claim_C7_witness :
    ∃ ng, modelTheCatDog.get_ngrams [Tok.str "the"] = .ok ng ∧
      ng.map (fun q => q.1) =
        (([(Tok.str "cat", (1 : ℚ)/3), (Tok.str "dog", (2 : ℚ)/3)] :
          List (Tok × ℚ)).map (fun q => q.1)).map (fun s => [Tok.str "the"] ++ [s]) ∧
      ∀ s, alookup ([Tok.str "the"] ++ [s]) ng =
        alookup s [(Tok.str "cat", (1 : ℚ)/3), (Tok.str "dog", (2 : ℚ)/3)] := by
  have hget : modelTheCatDog.get_suffixes [Tok.str "the"]
      = .ok [(Tok.str "cat", (1 : ℚ)/3), (Tok.str "dog", (2 : ℚ)/3)] := by
    have hm : modelTheCatDog = ⟨2, [("the", [(Tok.str "cat", 1), (Tok.str "dog", 2)])]⟩ := by
      decide
    rw [hm]
    norm_num [Markov.get_suffixes, joinToks, alookup]
  exact claim_C7 modelTheCatDog [Tok.str "the"]
    [(Tok.str "cat", (1 : ℚ)/3), (Tok.str "dog", (2 : ℚ)/3)] hget

/-- C8: construction yields an empty graph for an integer order ≥ 2 and
fails with `InvalidArgument` otherwise; after every finite sequence of
`add_ngram` and `update` calls the graph stays a dict of dicts whose counts
are all positive integers, and no call removes an entry or decreases a
count — every (prefix key, suffix) count only grows. -/
theorem claim_C8 :
    Markov.init .nonInt = .error .typeError ∧
    (∀ i : Int, i < 2 → Markov.init (.int i) = .error .valueError) ∧
    (∀ i : Int, 2 ≤ i → Markov.init (.int i) = .ok ⟨i, []⟩ ∧ GoodGraph ([] : Graph)) ∧
    (∀ (m : Markov) (ops : List Op), GoodGraph m.graph → (∀ op ∈ ops, Op.Good op) →
      GoodGraph (runOps m ops).graph ∧
      (∀ e ∈ (runOps m ops).graph, ∀ q ∈ e.2, 1 ≤ q.2) ∧
      ∀ p s, countOf m.graph p s ≤ countOf (runOps m ops).graph p s) := by
  refine ⟨rfl, ?_, ?_, ?_⟩
  · intro i hi
    simp only [Markov.init, if_pos hi]
  · intro i hi
    refine ⟨?_, ?_⟩
    · simp only [Markov.init, if_neg (show ¬i < 2 by omega)]
    · exact ⟨List.nodup_nil, by simp⟩
  · intro m ops hm hops
    obtain ⟨hgood, hmono⟩ := runOps_good hm hops
    exact ⟨hgood, fun e he q hq => ((hgood.2 e he).2.2) q hq, hmono⟩

theorem claim_C8_witness :
    GoodGraph (runOps ⟨2, []⟩
      [.add [Tok.str "a", Tok.str "b"],
       .upd ⟨2, [("a", [(Tok.str "b", 2)])]⟩]).graph ∧
    (∀ e ∈ (runOps (⟨2, []⟩ : Markov)
      [.add [Tok.str "a", Tok.str "b"],
       .upd ⟨2, [("a", [(Tok.str "b", 2)])]⟩]).graph, ∀ q ∈ e.2, 1 ≤ q.2) ∧
    ∀ p s, countOf ([] : Graph) p s ≤ countOf (runOps (⟨2, []⟩ : Markov)
      [.add [Tok.str "a", Tok.str "b"],
       .upd ⟨2, [("a", [(Tok.str "b", 2)])]⟩]).graph p s :=
  claim_C8.2.2.2 ⟨2, []⟩
    [.add [Tok.str "a", Tok.str "b"], .upd ⟨2, [("a", [(Tok.str "b", 2)])]⟩]
    (by decide) (by decide)

/-- C9 counterexample: `add_ngram` does not stringify the final token, so a
call whose last token is a non-stringable (merely hashable) object succeeds
instead of signalling `InvalidArgument`. -/
theorem claim_C9_counterexample :
    (Tok.obj 0).isStr = false ∧
    (⟨2, []⟩ : Markov).add_ngram [Tok.str "a", Tok.obj 0]
      = .ok ⟨2, [("a", [(Tok.obj 0, 1)])]⟩ := by
  decide

/-- C9 (amended): an exact-arity `add_ngram` call signals `InvalidArgument`
(a `TypeError`) when any of the first `order - 1` tokens is not stringable,
and this validation happens before any mutation, so the failing call leaves
the graph completely unchanged; the final token is exempt — it is used only
as a dict key and never concatenated. -/
theorem claim_C9 :
    ∀ (m : Markov) (ngram : List Tok) (x : Tok),
      (ngram.length : Int) = m.n →
      x ∈ ngram.dropLast → x.isStr = false →
      m.add_ngram ngram = .error .typeError ∧ applyOp m (.add ngram) = m := by
  intro m ngram x hlen hx hxs
  have herr : m.add_ngram ngram = .error .typeError := by
    unfold Markov.add_ngram
    rw [if_neg (fun hc => hc hlen), joinToks_eq_none x hx hxs]
  refine ⟨herr, ?_⟩
  rw [applyOp_add, herr]

theorem claim_C9_witness :
    (⟨2, []⟩ : Markov).add_ngram [Tok.pynone, Tok.str "b"] = .error .typeError ∧
    applyOp ⟨2, []⟩ (.add [Tok.pynone, Tok.str "b"]) = ⟨2, []⟩ :=
  claim_C9 ⟨2, []⟩ [Tok.pynone, Tok.str "b"] Tok.pynone (by decide) (by decide) (by decide)

theorem walk_cons (m : Markov) (w s : List Tok) (t : ℚ) (ts : List ℚ) :
    m.walk w s (t :: ts) = match m.random_suffix w t with
      | .error e => .error e
      | .ok suffix =>
        if suffix = Tok.str "" then .ok (some (s ++ [suffix]))
        else m.walk (windowPush w (m.n - 1).toNat suffix) (s ++ [suffix]) ts := rfl

/-- C10: when the walk's window is an unseen prefix, `random_suffix` returns
the `None` sentinel (distinct from the empty-string terminal), the walk
appends it to the output and keeps going, and the very next sampling step
raises a `TypeError` because `None` cannot be concatenated into a prefix
key. -/
theorem claim_C10 :
    ∀ (m : Markov) (w s : List Tok) (k : String) (t1 t2 : ℚ) (ts : List ℚ),
      2 ≤ m.n → (w.length : Int) = m.n - 1 →
      joinToks w = some k → alookup k m.graph = Option.none →
      m.random_suffix w t1 = .ok Tok.pynone ∧
      Tok.pynone ≠ Tok.str "" ∧
      m.walk w s (t1 :: t2 :: ts) =
        m.walk (windowPush w (m.n - 1).toNat Tok.pynone) (s ++ [Tok.pynone]) (t2 :: ts) ∧
      m.walk w s (t1 :: t2 :: ts) = .error .typeError := by
  intro m w s k t1 t2 ts hn hlen hjoin hlook
  have hget : m.get_suffixes w = .ok [] := by
    unfold Markov.get_suffixes
    rw [if_neg (fun hc => hc hlen)]
    simp only [hjoin, hlook]
  have hsuf : m.random_suffix w t1 = .ok Tok.pynone := by
    unfold Markov.random_suffix
    rw [hget]
    rfl
  have hterm : Tok.pynone ≠ Tok.str "" := fun hc => Tok.noConfusion hc
  have hwlen : w.length = (m.n - 1).toNat := by omega
  have hwpos : 1 ≤ w.length := by omega
  have hw2 : windowPush w (m.n - 1).toNat Tok.pynone = w.drop 1 ++ [Tok.pynone] := by
    unfold windowPush
    simp only [List.length_append, List.length_cons, List.length_nil]
    rw [show w.length + (0 + 1) - (m.n - 1).toNat = 1 by omega]
    exact List.drop_append_of_le_length hwpos
  have hmem : Tok.pynone ∈ windowPush w (m.n - 1).toNat Tok.pynone := by
    rw [hw2]
    simp
  have hlen2 : (((windowPush w (m.n - 1).toNat Tok.pynone).length : Nat) : Int) = m.n - 1 := by
    rw [hw2]
    simp only [List.length_append, List.length_drop, List.length_cons, List.length_nil]
    omega
  have hget2 : m.get_suffixes (windowPush w (m.n - 1).toNat Tok.pynone)
      = .error .typeError := by
    unfold Markov.get_suffixes
    rw [if_neg (fun hc => hc hlen2), joinToks_eq_none Tok.pynone hmem rfl]
  have hsuf2 : m.random_suffix (windowPush w (m.n - 1).toNat Tok.pynone) t2
      = .error .typeError := by
    unfold Markov.random_suffix
    rw [hget2]
  have hstep : m.walk w s (t1 :: t2 :: ts) =
      m.walk (windowPush w (m.n - 1).toNat Tok.pynone) (s ++ [Tok.pynone]) (t2 :: ts) := by
    rw [walk_cons]
    simp only [hsuf]
    rw [if_neg hterm]
  have herr : m.walk (windowPush w (m.n - 1).toNat Tok.pynone) (s ++ [Tok.pynone]) (t2 :: ts)
      = .error .typeError := by
    rw [walk_cons]
    simp only [hsuf2]
  exact ⟨hsuf, hterm, hstep, hstep.trans herr⟩

theorem claim_C10_witness :
    (⟨2, []⟩ : Markov).random_suffix [Tok.str "a"] 0 = .ok Tok.pynone ∧
    Tok.pynone ≠ Tok.str "" ∧
    (⟨2, []⟩ : Markov).walk [Tok.str "a"] [Tok.str "a"] [0, 0] =
      (⟨2, []⟩ : Markov).walk
        (windowPush [Tok.str "a"] ((2 : Int) - 1).toNat Tok.pynone)
        ([Tok.str "a"] ++ [Tok.pynone]) [0] ∧
    (⟨2, []⟩ : Markov).walk [Tok.str "a"] [Tok.str "a"] [0, 0] = .error .typeError :=
  claim_C10 ⟨2, []⟩ [Tok.str "a"] [Tok.str "a"] "a" 0 0 []
    (by decide) (by decide) (by decide) (by decide)
